import Mathlib

/-!
Shallow embedding of the GossipBot submission service:
`server/server.js` (Express 5 intake handler, Mongo-backed store,
admin listing) and `server/db.js` (SQLite helper schema and statements).

Strings are modelled as `List Char` (JS strings are sequences of UTF-16
code units; lengths and slices are counted with `utf16Len`, which counts
a supplementary-plane code point as two units, as `String.prototype.length`
and `slice` do).  Machine integers do not occur in the validation logic;
the SHA-256 fingerprint is modelled with `Nat` arithmetic reduced mod 2^32.
-/

namespace GossipBot

/-- The set matched by JavaScript `\s` (and removed by `String.prototype.trim`):
ASCII whitespace, NBSP, BOM, and the Unicode space/line separators. -/
def jsSpace (c : Char) : Bool :=
  c = ' ' || c = '\t' || c = '\n' || c = '\r' ||
  c.val = 0x0B || c.val = 0x0C || c.val = 0xA0 || c.val = 0xFEFF ||
  c.val = 0x1680 || (0x2000 ≤ c.val && c.val ≤ 0x200A) ||
  c.val = 0x2028 || c.val = 0x2029 || c.val = 0x202F || c.val = 0x205F ||
  c.val = 0x3000

/-- `String.prototype.trim`: strip `jsSpace` characters from both ends. -/
def jsTrim (s : List Char) : List Char :=
  ((s.dropWhile jsSpace).reverse.dropWhile jsSpace).reverse

/-- JS `String.prototype.length`: number of UTF-16 code units (an astral
code point counts as two units). -/
def utf16Len (s : List Char) : Nat :=
  (s.map (fun c => if 0x10000 ≤ c.val then 2 else 1)).sum

/-- ASCII digit, the set matched by JS regex `\d`. -/
def jsDigit (c : Char) : Bool := '0' ≤ c && c ≤ '9'

/-- ASCII letter (either case); with the `/i` flag this is what `[a-z]` matches. -/
def asciiLetter (c : Char) : Bool := ('a' ≤ c && c ≤ 'z') || ('A' ≤ c && c ≤ 'Z')

/-- JS regex `\w`: `[A-Za-z0-9_]`. -/
def wordChar (c : Char) : Bool := asciiLetter c || jsDigit c || c = '_'

/-- Character class `[\d\s\-()]` from the phone alternative of `risky`. -/
def phoneSep (c : Char) : Bool := jsDigit c || jsSpace c || c = '-' || c = '(' || c = ')'

/-- Character class `[\w.+-]` (email local part) of `risky`. -/
def emailLocalChar (c : Char) : Bool := wordChar c || c = '.' || c = '+' || c = '-'

/-- Character class `[\w-]` (email domain label) of `risky`. -/
def emailDomainChar (c : Char) : Bool := wordChar c || c = '-'

/-- Prefix match of `\d[\d\s\-()]{8,}`: a digit followed by at least eight
characters of the separator class. -/
def matchPhoneDigit : List Char → Bool
  | [] => false
  | c :: rest => jsDigit c && decide (8 ≤ (rest.takeWhile phoneSep).length)

/-- Prefix match of the first alternative `\+?\d[\d\s\-()]{8,}` of `risky`.
The leading `+` is optional; `+` itself is not a digit, so when the input
starts with `+` the digit part must match just after it. -/
def matchPhone : List Char → Bool
  | [] => false
  | c :: rest => if c = '+' then matchPhoneDigit rest else matchPhoneDigit (c :: rest)

/-- Prefix match of the second alternative `[\w.+-]+@[\w-]+\.[a-z]{2,}` of
`risky` (with `/i`).  The local and domain classes exclude `@` and `.`
respectively, so the greedy runs are forced and no backtracking arises. -/
def matchEmail (s : List Char) : Bool :=
  let loc := s.takeWhile emailLocalChar
  decide (1 ≤ loc.length) &&
    match s.drop loc.length with
    | a :: r2 =>
      (a = '@') &&
        (let dom := r2.takeWhile emailDomainChar
         decide (1 ≤ dom.length) &&
           (match r2.drop dom.length with
            | b :: t1 :: t2 :: _ => (b = '.') && asciiLetter t1 && asciiLetter t2
            | _ => false))
    | _ => false

/-- Prefix match of the third alternative `t\.me\/` of `risky` (with `/i`). -/
def matchTme : List Char → Bool
  | t :: d :: m :: e :: sl :: _ =>
      (t = 't' || t = 'T') && (d = '.') && (m = 'm' || m = 'M') &&
        (e = 'e' || e = 'E') && (sl = '/')
  | _ => false

/-- `risky.test(text)` for
`/(\+?\d[\d\s\-()]{8,})|([\w.+-]+@[\w-]+\.[a-z]{2,})|(t\.me\/)/i`:
true iff some alternative matches starting at some position. -/
def riskyTest : List Char → Bool
  | [] => false
  | c :: rest =>
      matchPhone (c :: rest) || matchEmail (c :: rest) || matchTme (c :: rest) ||
        riskyTest rest

/-- Scan of the phone alternative alone: does `\+?\d[\d\s\-()]{8,}` match at
some position of the text? -/
def phoneScan : List Char → Bool
  | [] => false
  | c :: rest => matchPhone (c :: rest) || phoneScan rest

/-- Number of ASCII digits occurring in the text. -/
def digitCount (s : List Char) : Nat := (s.filter jsDigit).length

/-! ## JSON-representable JavaScript values

`req.body` is produced by `express.json` / `express.urlencoded`, so a field
such as `req.body?.text` can be any JSON value (or `undefined` when absent).
Numbers are restricted to integers: floating point is outside the model. -/

inductive JsValue where
  | jsUndefined
  | jsNull
  | jsBool (b : Bool)
  | jsNum (n : Int)
  | jsStr (s : List Char)
  | jsArr (xs : List JsValue)
  | jsObj

/-- JS truthiness test (`undefined`, `null`, `false`, `0`, `''` are falsy;
arrays and objects are always truthy). -/
def jsFalsy : JsValue → Bool
  | .jsUndefined => true
  | .jsNull => true
  | .jsBool b => !b
  | .jsNum n => n == 0
  | .jsStr s => s.isEmpty
  | .jsArr _ => false
  | .jsObj => false

mutual

/-- JS `toString()` conversion for the modelled values.  Arrays join their
elements with commas, rendering `null`/`undefined` elements as empty. -/
def jsToString : JsValue → List Char
  | .jsUndefined => "undefined".toList
  | .jsNull => "null".toList
  | .jsBool true => "true".toList
  | .jsBool false => "false".toList
  | .jsNum n => (toString n).toList
  | .jsStr s => s
  | .jsArr xs => jsJoin xs
  | .jsObj => "[object Object]".toList

/-- Rendering of one array element inside `Array.prototype.toString`
(`null` and `undefined` render as empty). -/
def jsElem : JsValue → List Char
  | .jsUndefined => []
  | .jsNull => []
  | .jsBool true => "true".toList
  | .jsBool false => "false".toList
  | .jsNum n => (toString n).toList
  | .jsStr s => s
  | .jsArr xs => jsJoin xs
  | .jsObj => "[object Object]".toList

/-- Comma-join of array elements. -/
def jsJoin : List JsValue → List Char
  | [] => []
  | [x] => jsElem x
  | x :: y :: xs => jsElem x ++ ',' :: jsJoin (y :: xs)

end

/-- The coercion `(v || '').toString()` applied to the `text` field. -/
def coerceText (v : JsValue) : List Char :=
  if jsFalsy v then [] else jsToString v

/-! ## SHA-256 (as used by `crypto.createHash('sha256')`)

Word-level arithmetic is `Nat` reduced mod `2^32`. -/

/-- Reduce to a 32-bit word. -/
def w32 (n : Nat) : Nat := n % 4294967296

/-- Right rotation of a 32-bit word. -/
def rotr (k x : Nat) : Nat := w32 ((x >>> k) ||| (x <<< (32 - k)))

/-- SHA-256 big sigma 0. -/
def bigSigma0 (x : Nat) : Nat := (rotr 2 x) ^^^ (rotr 13 x) ^^^ (rotr 22 x)

/-- SHA-256 big sigma 1. -/
def bigSigma1 (x : Nat) : Nat := (rotr 6 x) ^^^ (rotr 11 x) ^^^ (rotr 25 x)

/-- SHA-256 small sigma 0. -/
def smallSigma0 (x : Nat) : Nat := (rotr 7 x) ^^^ (rotr 18 x) ^^^ (x >>> 3)

/-- SHA-256 small sigma 1. -/
def smallSigma1 (x : Nat) : Nat := (rotr 17 x) ^^^ (rotr 19 x) ^^^ (x >>> 10)

/-- SHA-256 choice function. -/
def shaCh (x y z : Nat) : Nat := (x &&& y) ^^^ ((4294967295 ^^^ x) &&& z)

/-- SHA-256 majority function. -/
def shaMaj (x y z : Nat) : Nat := (x &&& y) ^^^ (x &&& z) ^^^ (y &&& z)

/-- SHA-256 round constants (decimal rendering of the FIPS 180-4 table). -/
def shaK : List Nat :=
  [1116352408, 1899447441, 3049323471, 3921009573, 961987163, 1508970993,
   2453635748, 2870763221, 3624381080, 310598401, 607225278, 1426881987,
   1925078388, 2162078206, 2614888103, 3248222580, 3835390401, 4022224774,
   264347078, 604807628, 770255983, 1249150122, 1555081692, 1996064986,
   2554220882, 2821834349, 2952996808, 3210313671, 3336571891, 3584528711,
   113926993, 338241895, 666307205, 773529912, 1294757372, 1396182291,
   1695183700, 1986661051, 2177026350, 2456956037, 2730485921, 2820302411,
   3259730800, 3345764771, 3516065817, 3600352804, 4094571909, 275423344,
   430227734, 506948616, 659060556, 883997877, 958139571, 1322822218,
   1537002063, 1747873779, 1955562222, 2024104815, 2227730452, 2361852424,
   2428436474, 2756734187, 3204031479, 3329325298]

/-- Working state of the compression function (eight 32-bit words). -/
structure H8 where
  a : Nat
  b : Nat
  c : Nat
  d : Nat
  e : Nat
  f : Nat
  g : Nat
  h : Nat

/-- SHA-256 initial hash value (decimal rendering). -/
def shaH0 : H8 :=
  ⟨1779033703, 3144134277, 1013904242, 2773480762,
   1359893119, 2600822924, 528734635, 1541459225⟩

/-- One compression round. -/
def shaRound (s : H8) (kw : Nat × Nat) : H8 :=
  let t1 := w32 (s.h + bigSigma1 s.e + shaCh s.e s.f s.g + kw.1 + kw.2)
  let t2 := w32 (bigSigma0 s.a + shaMaj s.a s.b s.c)
  ⟨w32 (t1 + t2), s.a, s.b, s.c, w32 (s.d + t1), s.e, s.f, s.g⟩

/-- Extend the 16 block words to the 64-word message schedule by appending
`n` further words. -/
def extendW (w : List Nat) : Nat → List Nat
  | 0 => w
  | n + 1 =>
      let L := w.length
      let next := w32 (smallSigma1 (w.getD (L - 2) 0) + w.getD (L - 7) 0 +
        smallSigma0 (w.getD (L - 15) 0) + w.getD (L - 16) 0)
      extendW (w ++ [next]) n

/-- Compress one 16-word block into the running state. -/
def compressBlock (st : H8) (block : List Nat) : H8 :=
  let ws := extendW block 48
  let r := (shaK.zip ws).foldl shaRound st
  ⟨w32 (st.a + r.a), w32 (st.b + r.b), w32 (st.c + r.c), w32 (st.d + r.d),
   w32 (st.e + r.e), w32 (st.f + r.f), w32 (st.g + r.g), w32 (st.h + r.h)⟩

/-- UTF-8 encoding of one code point (Node hashes strings as UTF-8). -/
def utf8Bytes (c : Char) : List Nat :=
  let n := c.toNat
  if n < 0x80 then [n]
  else if n < 0x800 then [0xC0 ||| (n >>> 6), 0x80 ||| (n &&& 0x3F)]
  else if n < 0x10000 then
    [0xE0 ||| (n >>> 12), 0x80 ||| ((n >>> 6) &&& 0x3F), 0x80 ||| (n &&& 0x3F)]
  else
    [0xF0 ||| (n >>> 18), 0x80 ||| ((n >>> 12) &&& 0x3F),
     0x80 ||| ((n >>> 6) &&& 0x3F), 0x80 ||| (n &&& 0x3F)]

/-- UTF-8 encoding of a string. -/
def utf8Encode (s : List Char) : List Nat := (s.map utf8Bytes).flatten

/-- SHA-256 padding: `0x80`, zeros to 56 mod 64, then the 8-byte big-endian
bit length. -/
def padBytes (msg : List Nat) : List Nat :=
  let L := msg.length
  let z := (120 - ((L + 1) % 64)) % 64
  let lenBytes := (List.range 8).map (fun i => ((8 * L) >>> ((7 - i) * 8)) &&& 255)
  msg ++ 0x80 :: List.replicate z 0 ++ lenBytes

/-- Group bytes into big-endian 32-bit words. -/
def bytesToWords : List Nat → List Nat
  | b0 :: b1 :: b2 :: b3 :: rest =>
      (b0 <<< 24 ||| b1 <<< 16 ||| b2 <<< 8 ||| b3) :: bytesToWords rest
  | _ => []

/-- Group words into 16-word blocks. -/
def toBlocks (ws : List Nat) : List (List Nat) :=
  if ws.isEmpty then []
  else ws.take 16 :: toBlocks (ws.drop 16)
termination_by ws.length
decreasing_by
  simp only [List.length_drop]
  rename_i h
  exact Nat.sub_lt (List.length_pos.mpr (by simpa [List.isEmpty_iff] using h)) (by decide)

/-- One lowercase hex digit. -/
def hexDigit (n : Nat) : Char :=
  if n < 10 then Char.ofNat (48 + n) else Char.ofNat (87 + n)

/-- Fixed-width (8 hex characters) rendering of a 32-bit word. -/
def toHex8 (n : Nat) : List Char :=
  (List.range 8).map (fun i => hexDigit ((n >>> ((7 - i) * 4)) &&& 15))

/-- `crypto.createHash('sha256').update(s).digest('hex')`: the 64-character
lowercase hex digest of the UTF-8 bytes of `s`. -/
def sha256hex (s : List Char) : List Char :=
  let blocks := toBlocks (bytesToWords (padBytes (utf8Encode s)))
  let r := blocks.foldl compressBlock shaH0
  toHex8 r.a ++ toHex8 r.b ++ toHex8 r.c ++ toHex8 r.d ++
    toHex8 r.e ++ toHex8 r.f ++ toHex8 r.g ++ toHex8 r.h

/-! ## Intake handler (`POST /api/submit`) and the submission store

The Mongo collection is modelled as a list of documents plus an id counter
standing for ObjectId generation; `new Date()` is modelled by a `now`
parameter passed to the handler.  The handler is the pure part of the route:
store availability (`getCollection` throwing, the 500 path) is environmental
and outside the model. -/

/-- A stored submission document (`doc` built in the submit route). -/
structure Doc where
  id : Nat
  text : List Char
  lang : String
  status : String
  created_at : Nat
  ip_hash : Option (List Char)
  ua : List Char
deriving DecidableEq, Repr

/-- The Mongo collection: documents plus the id-generation counter. -/
structure Store where
  docs : List Doc
  nextId : Nat
deriving DecidableEq, Repr

/-- `insertOne`: append the document, return the new store and inserted id. -/
def insertOne (st : Store) (text : List Char) (lang status : String)
    (created_at : Nat) (ip_hash : Option (List Char)) (ua : List Char) :
    Store × Nat :=
  (⟨st.docs ++ [⟨st.nextId, text, lang, status, created_at, ip_hash, ua⟩],
    st.nextId + 1⟩, st.nextId)

/-- The relevant inputs of a submit request: the two body fields (a missing
field or missing body reads as `undefined`), and the identity-bearing
headers/socket data.  Header values are strings; an absent header or socket
address is the empty list (the code normalizes absence with `|| ''`). -/
structure SubmitRequest where
  bodyText : JsValue
  bodyLang : JsValue
  xff : List Char
  remoteAddress : List Char
  userAgent : List Char

/-- `(req.headers['x-forwarded-for'] || '').toString().split(',')[0].trim()
|| req.socket.remoteAddress || ''`. -/
def requestIp (r : SubmitRequest) : List Char :=
  let fromXff := jsTrim (r.xff.takeWhile (fun c => c ≠ ','))
  if fromXff.isEmpty then r.remoteAddress else fromXff

/-- `ip ? sha256(ip).hex.slice(0, 16) : null` (line 110 of `server.js`). -/
def fingerprint (ip : List Char) : Option (List Char) :=
  if ip.isEmpty then none else some ((sha256hex ip).take 16)

/-- `(req.body?.lang === 'ru') ? 'ru' : 'en'` (line 96 of `server.js`):
strict equality with the string `'ru'` is false for every non-string value. -/
def normLang : JsValue → String
  | .jsStr s => if s = "ru".toList then "ru" else "en"
  | _ => "en"

/-- Responses of the submit route (the DB-error 500 path is environmental
and outside the pure model). -/
inductive SubmitResponse where
  | invalidLength
  | piiDetected
  | created (id : Nat)
deriving DecidableEq, Repr

/-- Discriminator for the `400 Invalid length` response. -/
def isInvalidLength : SubmitResponse → Bool
  | .invalidLength => true
  | _ => false

/-- `(req.body?.text || '').toString().trim()` (line 95 of `server.js`). -/
def submitText (r : SubmitRequest) : List Char := jsTrim (coerceText r.bodyText)

/-- The submit route handler (lines 95–124 of `server.js`). -/
def submitHandler (now : Nat) (r : SubmitRequest) (st : Store) :
    SubmitResponse × Store :=
  if utf16Len (submitText r) < 10 || 2000 < utf16Len (submitText r) then
    (.invalidLength, st)
  else if riskyTest (submitText r) then (.piiDetected, st)
  else
    match insertOne st (submitText r) (normLang r.bodyLang) "pending" now
        (fingerprint (requestIp r)) (r.userAgent.take 180) with
    | (st', id) => (.created id, st')

/-! ## Listings

`GET /api/admin/list` runs
`find({}).sort({created_at: -1}).limit(50).project({text:1, lang:1, status:1,
created_at:1})`.  An inclusion projection keeps `_id` implicitly.  Neither
Mongo's sort nor SQLite's `ORDER BY` specifies the relative order of
documents with equal keys, so the query denotes a relation: any output
obtained by fully sorting some permutation of the collection by
`created_at` descending and taking the first 50 is a valid answer. -/

/-- The fields visible through the admin-list projection
(`_id` plus the four included fields). -/
structure ListedDoc where
  id : Nat
  text : List Char
  lang : String
  status : String
  created_at : Nat
deriving DecidableEq, Repr

/-- The projection `{text: 1, lang: 1, status: 1, created_at: 1}`. -/
def projectDoc (d : Doc) : ListedDoc :=
  ⟨d.id, d.text, d.lang, d.status, d.created_at⟩

/-- Non-increasing `created_at` (the order `sort({created_at: -1})` and
`ORDER BY created_at DESC` guarantee). -/
def SortedByCreatedAtDesc (l : List Doc) : Prop :=
  l.Chain' (fun a b => b.created_at ≤ a.created_at)

/-- Valid answers of `GET /api/admin/list`: sort the whole collection by
`created_at` descending (tie order unspecified), take 50, project. -/
def adminListValid (st : Store) (out : List ListedDoc) : Prop :=
  ∃ sorted : List Doc, List.Perm sorted st.docs ∧ SortedByCreatedAtDesc sorted ∧
    out = (sorted.take 50).map projectDoc

/-- The ordering the claim asserts for listings: `created_at` descending with
ties broken by ascending `id` (stable = insertion order). -/
def specTieOrdered : List ListedDoc → Bool
  | [] => true
  | [_] => true
  | a :: b :: rest =>
      (decide (b.created_at < a.created_at) ||
        (decide (a.created_at = b.created_at) && decide (a.id < b.id))) &&
      specTieOrdered (b :: rest)

/-! ## SQLite helper (`server/db.js`) -/

/-- The CHECK constraint on `submissions.status`:
`status IN ('pending','approved','rejected')`. -/
def sqliteStatusCheck (s : String) : Bool :=
  s = "pending" || s = "approved" || s = "rejected"

/-- The CHECK constraint on `submissions.lang`: `lang IN ('en','ru')`. -/
def sqliteLangCheck (s : String) : Bool :=
  s = "en" || s = "ru"

/-- A row of the `submissions` table. -/
structure DbRow where
  id : Nat
  text : List Char
  lang : String
  status : String
  ip_hash : Option (List Char)
  ua : List Char
  created_at : Nat
deriving DecidableEq, Repr

/-- The SQLite database state: rows plus the AUTOINCREMENT counter. -/
structure DbState where
  rows : List DbRow
  nextId : Nat
deriving DecidableEq, Repr

/-- The payload bound by `insertStmt` (`@text, @lang, @ip_hash, @ua`). -/
structure DbPayload where
  text : List Char
  lang : String
  ip_hash : Option (List Char)
  ua : List Char

/-- `insertSubmission`: run `insertStmt` — the INSERT names only
`(text, lang, ip_hash, ua)`, so `status` takes its default `'pending'` and
`created_at` takes its default `datetime('now')` — and return
`lastInsertRowid`. -/
def insertSubmission (now : Nat) (p : DbPayload) (db : DbState) : DbState × Nat :=
  (⟨db.rows ++ [⟨db.nextId, p.text, p.lang, "pending", p.ip_hash, p.ua, now⟩],
    db.nextId + 1⟩, db.nextId)

/-- Rows selected by `listLatestStmt` (`SELECT id, text, lang, status,
created_at`), same shape as the admin-list projection. -/
def projectRow (r : DbRow) : ListedDoc :=
  ⟨r.id, r.text, r.lang, r.status, r.created_at⟩

/-- Non-increasing `created_at` for table rows. -/
def RowsSortedDesc (l : List DbRow) : Prop :=
  l.Chain' (fun a b => b.created_at ≤ a.created_at)

/-- Valid answers of `listLatest(limit)`: `ORDER BY created_at DESC LIMIT
@limit` with tie order unspecified. -/
def listLatestValid (db : DbState) (limit : Nat) (out : List ListedDoc) : Prop :=
  ∃ sorted : List DbRow, List.Perm sorted db.rows ∧ RowsSortedDesc sorted ∧
    out = (sorted.take limit).map projectRow

/-! ## Declarative characterization of `risky`

Tokens matched by the three alternatives, described positionally, and the
containment predicate `RiskyMatch` (a regex `.test` succeeds iff some
substring is a token).  These are the comparison point for the refinement
theorem about `riskyTest`. -/

/-- Tokens of the first alternative: an optional `+`, a digit, then at least
eight characters from the class `[\d\s\-()]`. -/
def PhonePattern (t : List Char) : Prop :=
  ∃ d rest, (t = d :: rest ∨ t = '+' :: d :: rest) ∧ jsDigit d = true ∧
    8 ≤ rest.length ∧ ∀ c ∈ rest, phoneSep c = true

/-- Tokens of the second alternative: nonempty local part, `@`, nonempty
domain label, a dot, and a TLD of at least two ASCII letters. -/
def EmailPattern (t : List Char) : Prop :=
  ∃ loc dom tld, t = loc ++ '@' :: (dom ++ '.' :: tld) ∧
    loc ≠ [] ∧ (∀ c ∈ loc, emailLocalChar c = true) ∧
    dom ≠ [] ∧ (∀ c ∈ dom, emailDomainChar c = true) ∧
    2 ≤ tld.length ∧ ∀ c ∈ tld, asciiLetter c = true

/-- Tokens of the third alternative: `t.me/` in either case. -/
def TmePattern (t : List Char) : Prop :=
  ∃ a b c, t = [a, '.', b, c, '/'] ∧ (a = 't' ∨ a = 'T') ∧
    (b = 'm' ∨ b = 'M') ∧ (c = 'e' ∨ c = 'E')

/-- The text contains a token of one of the three alternatives. -/
def RiskyMatch (s : List Char) : Prop :=
  ∃ pre t post, s = pre ++ t ++ post ∧
    (PhonePattern t ∨ EmailPattern t ∨ TmePattern t)

section TakeWhileLemmas

variable {α : Type} {p : α → Bool}

theorem takeWhile_append_all (l1 l2 : List α) (h : ∀ c ∈ l1, p c = true) :
    (l1 ++ l2).takeWhile p = l1 ++ l2.takeWhile p := by
  induction l1 with
  | nil => rfl
  | cons a t ih =>
      have hpa : p a = true := h a (List.mem_cons_self a t)
      have hrest := ih fun c hc => h c (List.mem_cons_of_mem a hc)
      simp [List.takeWhile_cons, hpa, hrest]

theorem takeWhile_append_stop (l1 : List α) (x : α) (l2 : List α)
    (h1 : ∀ c ∈ l1, p c = true) (h2 : p x = false) :
    (l1 ++ x :: l2).takeWhile p = l1 := by
  rw [takeWhile_append_all l1 (x :: l2) h1]
  simp [List.takeWhile_cons, h2]

theorem drop_length_takeWhile (l : List α) :
    l.drop (l.takeWhile p).length = l.dropWhile p := by
  induction l with
  | nil => rfl
  | cons a t ih =>
      by_cases h : p a <;>
        simp [List.takeWhile_cons, List.dropWhile_cons, h, ih]

end TakeWhileLemmas

/-! Forward direction: a token occurring as a prefix makes the
corresponding matcher succeed. -/

theorem matchPhone_of_pattern {t : List Char} (post : List Char)
    (h : PhonePattern t) : matchPhone (t ++ post) = true := by
  obtain ⟨d, rest, hshape, hd, hlen, hall⟩ := h
  have hplus : d = '+' → False := by
    intro hdp; rw [hdp] at hd; exact absurd hd (by decide)
  have hcore : matchPhoneDigit (d :: (rest ++ post)) = true := by
    have h8 : 8 ≤ ((rest ++ post).takeWhile phoneSep).length := by
      rw [takeWhile_append_all rest post hall]
      simp only [List.length_append]
      omega
    simp [matchPhoneDigit, hd, h8]
  rcases hshape with h1 | h1
  · subst h1
    simp only [List.cons_append, matchPhone]
    rw [if_neg (fun hc => hplus hc)]
    exact hcore
  · subst h1
    simp only [List.cons_append, matchPhone, if_pos rfl]
    exact hcore

theorem matchEmail_of_pattern {t : List Char} (post : List Char)
    (h : EmailPattern t) : matchEmail (t ++ post) = true := by
  obtain ⟨loc, dom, tld, hshape, hloc, hlocall, hdom, hdomall, htld, htldall⟩ := h
  obtain ⟨t1, t2, tr, htld3⟩ : ∃ t1 t2 tr, tld = t1 :: t2 :: tr := by
    match tld, htld with
    | t1 :: t2 :: tr, _ => exact ⟨t1, t2, tr, rfl⟩
  subst hshape htld3
  have hshape2 : (loc ++ '@' :: (dom ++ '.' :: (t1 :: t2 :: tr))) ++ post =
      loc ++ '@' :: (dom ++ '.' :: (t1 :: t2 :: (tr ++ post))) := by
    simp
  rw [hshape2]
  have htake : (loc ++ '@' :: (dom ++ '.' :: (t1 :: t2 :: (tr ++ post)))).takeWhile
      emailLocalChar = loc :=
    takeWhile_append_stop loc '@' _ hlocall (by decide)
  have hdrop : (loc ++ '@' :: (dom ++ '.' :: (t1 :: t2 :: (tr ++ post)))).drop
      loc.length = '@' :: (dom ++ '.' :: (t1 :: t2 :: (tr ++ post))) :=
    List.drop_left loc _
  have htake2 : (dom ++ '.' :: (t1 :: t2 :: (tr ++ post))).takeWhile
      emailDomainChar = dom :=
    takeWhile_append_stop dom '.' _ hdomall (by decide)
  have hdrop2 : (dom ++ '.' :: (t1 :: t2 :: (tr ++ post))).drop dom.length =
      '.' :: (t1 :: t2 :: (tr ++ post)) :=
    List.drop_left dom _
  have ht1 : asciiLetter t1 = true := htldall t1 (by simp)
  have ht2 : asciiLetter t2 = true := htldall t2 (by simp)
  simp only [matchEmail, htake, hdrop, htake2, hdrop2]
  have hlocpos : 1 ≤ loc.length := by
    cases loc with
    | nil => exact absurd rfl hloc
    | cons _ _ => simp
  have hdompos : 1 ≤ dom.length := by
    cases dom with
    | nil => exact absurd rfl hdom
    | cons _ _ => simp
  simp [hlocpos, hdompos, ht1, ht2]

theorem matchTme_of_pattern {t : List Char} (post : List Char)
    (h : TmePattern t) : matchTme (t ++ post) = true := by
  obtain ⟨a, b, c, hshape, ha, hb, hc⟩ := h
  subst hshape
  rcases ha with ha | ha <;> rcases hb with hb | hb <;> rcases hc with hc | hc <;>
    subst ha <;> subst hb <;> subst hc <;> rfl

/-! Backward direction: a successful prefix match carves a token off the
front of the input. -/

theorem pattern_of_matchPhoneDigit {s : List Char}
    (h : matchPhoneDigit s = true) :
    ∃ d r post, s = d :: (r ++ post) ∧ jsDigit d = true ∧ 8 ≤ r.length ∧
      ∀ c ∈ r, phoneSep c = true := by
  cases s with
  | nil => exact absurd h (by simp [matchPhoneDigit])
  | cons d rest =>
      simp only [matchPhoneDigit, Bool.and_eq_true, decide_eq_true_eq] at h
      obtain ⟨hd, hlen⟩ := h
      refine ⟨d, rest.takeWhile phoneSep, rest.dropWhile phoneSep, ?_, hd, hlen, ?_⟩
      · simp [List.takeWhile_append_dropWhile]
      · exact fun c hc => List.mem_takeWhile_imp hc

theorem pattern_of_matchPhone {s : List Char} (h : matchPhone s = true) :
    ∃ t post, s = t ++ post ∧ PhonePattern t := by
  cases s with
  | nil => exact absurd h (by simp [matchPhone])
  | cons c rest =>
      by_cases hc : c = '+'
      · subst hc
        rw [matchPhone, if_pos rfl] at h
        obtain ⟨d, r, post, hsplit, hd, hlen, hall⟩ :=
          pattern_of_matchPhoneDigit h
        exact ⟨'+' :: d :: r, post, by simp [hsplit],
          d, r, Or.inr rfl, hd, hlen, hall⟩
      · rw [matchPhone, if_neg hc] at h
        obtain ⟨d, r, post, hsplit, hd, hlen, hall⟩ :=
          pattern_of_matchPhoneDigit h
        exact ⟨d :: r, post, by simp [hsplit], d, r, Or.inl rfl, hd, hlen, hall⟩

theorem pattern_of_matchEmail {s : List Char} (h : matchEmail s = true) :
    ∃ t post, s = t ++ post ∧ EmailPattern t := by
  rw [matchEmail] at h
  simp only [Bool.and_eq_true, decide_eq_true_eq] at h
  obtain ⟨hlocpos, hrest⟩ := h
  revert hrest
  cases hdrop : s.drop (s.takeWhile emailLocalChar).length with
  | nil => intro hrest; exact absurd hrest (by simp)
  | cons a r2 =>
      intro hrest
      simp only [Bool.and_eq_true, decide_eq_true_eq] at hrest
      obtain ⟨ha, hdompos, htail⟩ := hrest
      subst ha
      revert htail
      cases hdrop2 : r2.drop (r2.takeWhile emailDomainChar).length with
      | nil => intro htail; exact absurd htail (by simp)
      | cons b r3 =>
          cases r3 with
          | nil => intro htail; exact absurd htail (by simp)
          | cons t1 r4 =>
              cases r4 with
              | nil => intro htail; exact absurd htail (by simp)
              | cons t2 r5 =>
                  intro htail
                  simp only [Bool.and_eq_true, decide_eq_true_eq] at htail
                  obtain ⟨⟨hb, ht1⟩, ht2⟩ := htail
                  subst hb
                  have hs1 : s = s.takeWhile emailLocalChar ++ '@' :: r2 := by
                    have hx := List.takeWhile_append_dropWhile
                      (p := emailLocalChar) (l := s)
                    rw [← drop_length_takeWhile (p := emailLocalChar) s, hdrop] at hx
                    exact hx.symm
                  have hs2 : r2 = r2.takeWhile emailDomainChar ++ '.' :: t1 :: t2 :: r5 := by
                    have hx := List.takeWhile_append_dropWhile
                      (p := emailDomainChar) (l := r2)
                    rw [← drop_length_takeWhile (p := emailDomainChar) r2, hdrop2] at hx
                    exact hx.symm
                  refine ⟨s.takeWhile emailLocalChar ++
                    '@' :: (r2.takeWhile emailDomainChar ++ '.' :: [t1, t2]), r5, ?_, ?_⟩
                  · conv_lhs => rw [hs1, hs2]
                    simp
                  · refine ⟨s.takeWhile emailLocalChar, r2.takeWhile emailDomainChar,
                      [t1, t2], rfl, ?_, ?_, ?_, ?_, by simp, ?_⟩
                    · intro hnil; rw [hnil] at hlocpos; simp at hlocpos
                    · intro c hc; exact List.mem_takeWhile_imp hc
                    · intro hnil; rw [hnil] at hdompos; simp at hdompos
                    · intro c hc; exact List.mem_takeWhile_imp hc
                    · intro c hc
                      simp only [List.mem_cons, List.mem_singleton,
                        List.not_mem_nil, or_false] at hc
                      rcases hc with rfl | rfl
                      · exact ht1
                      · exact ht2

theorem pattern_of_matchTme {s : List Char} (h : matchTme s = true) :
    ∃ t post, s = t ++ post ∧ TmePattern t := by
  cases s with
  | nil => exact absurd h (by simp [matchTme])
  | cons a s1 => cases s1 with
    | nil => exact absurd h (by simp [matchTme])
    | cons b s2 => cases s2 with
      | nil => exact absurd h (by simp [matchTme])
      | cons m s3 => cases s3 with
        | nil => exact absurd h (by simp [matchTme])
        | cons e s4 => cases s4 with
          | nil => exact absurd h (by simp [matchTme])
          | cons sl rest =>
              simp only [matchTme, Bool.and_eq_true, Bool.or_eq_true,
                decide_eq_true_eq] at h
              obtain ⟨⟨⟨⟨ha, hb⟩, hm⟩, he⟩, hsl⟩ := h
              subst hb; subst hsl
              exact ⟨[a, '.', m, e, '/'], rest, by simp, a, m, e, rfl, ha, hm, he⟩

/-! Scan-level equivalence. -/

theorem riskyTest_of_match_at {t post : List Char}
    (h : PhonePattern t ∨ EmailPattern t ∨ TmePattern t) :
    riskyTest (t ++ post) = true := by
  have hne : t ≠ [] := by
    rcases h with hp | he | ht
    · obtain ⟨d, r, hsh, _⟩ := hp
      rcases hsh with rfl | rfl <;> simp
    · obtain ⟨loc, dom, tld, rfl, hloc, _⟩ := he
      cases loc with
      | nil => exact absurd rfl hloc
      | cons _ _ => simp
    · obtain ⟨a, b, c, rfl, _⟩ := ht
      simp
  cases hts : t ++ post with
  | nil =>
      exact absurd (List.append_eq_nil.mp hts).1 hne
  | cons c rest =>
      rw [riskyTest]
      rcases h with hp | he | htm
      · rw [← hts, matchPhone_of_pattern post hp]
        simp
      · rw [← hts, matchEmail_of_pattern post he]
        simp
      · rw [← hts, matchTme_of_pattern post htm]
        simp

/-- C2 (amended): `risky.test` returns true exactly when the text contains
an optional `+` followed by one digit and then at least eight characters
that are digits, whitespace, hyphens or parentheses; or an email-shaped
token `local@domain.tld` with a 2+ letter TLD; or `t.me/` — all matched
case-insensitively.  The phone alternative requires only the one leading
digit, not nine digits. -/
theorem riskyTest_iff_riskyMatch (s : List Char) :
    riskyTest s = true ↔ RiskyMatch s := by
  constructor
  · intro h
    induction s with
    | nil => exact absurd h (by simp [riskyTest])
    | cons c rest ih =>
        rw [riskyTest] at h
        simp only [Bool.or_eq_true] at h
        rcases h with ((hp | he) | ht) | hr
        · obtain ⟨t, post, hsplit, hpat⟩ := pattern_of_matchPhone hp
          exact ⟨[], t, post, by simp [hsplit], Or.inl hpat⟩
        · obtain ⟨t, post, hsplit, hpat⟩ := pattern_of_matchEmail he
          exact ⟨[], t, post, by simp [hsplit], Or.inr (Or.inl hpat)⟩
        · obtain ⟨t, post, hsplit, hpat⟩ := pattern_of_matchTme ht
          exact ⟨[], t, post, by simp [hsplit], Or.inr (Or.inr hpat)⟩
        · obtain ⟨pre, t, post, hsplit, hpat⟩ := ih hr
          exact ⟨c :: pre, t, post, by simp [hsplit], hpat⟩
  · rintro ⟨pre, t, post, rfl, hpat⟩
    induction pre with
    | nil => simpa using riskyTest_of_match_at hpat
    | cons c pre ih =>
        simp only [List.cons_append, riskyTest, List.append_eq]
        rw [ih]
        simp

/-! ## Transport lemmas for the relational listing semantics -/

section Transport

variable {α β : Type} {R : α → β → Prop}

theorem perm_transport_forall₂ {l₁ s₁ : List α} {l₂ : List β}
    (hp : List.Perm l₁ s₁) (hf : List.Forall₂ R l₁ l₂) :
    ∃ s₂, List.Perm l₂ s₂ ∧ List.Forall₂ R s₁ s₂ := by
  induction hp generalizing l₂ with
  | nil =>
      cases hf
      exact ⟨[], List.Perm.refl _, List.Forall₂.nil⟩
  | cons x hp ih =>
      cases hf with
      | cons hxy hf' =>
          obtain ⟨t₂, hpt, hft⟩ := ih hf'
          exact ⟨_ :: t₂, List.Perm.cons _ hpt, List.Forall₂.cons hxy hft⟩
  | swap x y t =>
      cases hf with
      | cons h1 hf1 =>
          cases hf1 with
          | cons h2 hf2 =>
              exact ⟨_ :: _ :: _, List.Perm.swap _ _ _,
                List.Forall₂.cons h2 (List.Forall₂.cons h1 hf2)⟩
  | trans hp1 hp2 ih1 ih2 =>
      obtain ⟨m₂, hpm, hfm⟩ := ih1 hf
      obtain ⟨s₂, hps, hfs⟩ := ih2 hfm
      exact ⟨s₂, hpm.trans hps, hfs⟩

theorem chain'_transfer {S : α → α → Prop} {T : β → β → Prop}
    (hcompat : ∀ a b a' b', R a a' → R b b' → S a b → T a' b') :
    ∀ {l : List α} {l' : List β}, List.Forall₂ R l l' →
      List.Chain' S l → List.Chain' T l' := by
  intro l l' hf hc
  induction hf with
  | nil => exact List.chain'_nil
  | @cons a b t₁ t₂ hab hf ih =>
      cases hf with
      | nil => exact List.chain'_singleton _
      | @cons a₂ b₂ u₁ u₂ hab2 hf2 =>
          rw [List.chain'_cons] at hc
          rw [List.chain'_cons]
          exact ⟨hcompat _ _ _ _ hab hab2 hc.1, ih hc.2⟩

theorem map_eq_of_forall₂ {γ : Type} {f : α → γ} {g : β → γ} :
    ∀ {l : List α} {l' : List β},
      List.Forall₂ (fun a b => f a = g b) l l' → l.map f = l'.map g := by
  intro l l' hf
  induction hf with
  | nil => rfl
  | cons h _ ih => simp only [List.map_cons, h, ih]

end Transport

/-- Agreement of two documents on everything the admin-list projection can
see (all fields except `ip_hash` and `ua`). -/
def agreeVisible (d d' : Doc) : Prop := projectDoc d = projectDoc d'

/-! ## Hex digest facts for the fingerprint -/

/-- Lowercase hexadecimal digit test. -/
def isHexChar (c : Char) : Bool := ('0' ≤ c && c ≤ '9') || ('a' ≤ c && c ≤ 'f')

theorem hexDigit_isHex {m : Nat} (h : m < 16) : isHexChar (hexDigit m) = true := by
  interval_cases m <;> decide

theorem toHex8_length (n : Nat) : (toHex8 n).length = 8 := by
  simp [toHex8]

theorem toHex8_hex (n : Nat) : ∀ c ∈ toHex8 n, isHexChar c = true := by
  intro c hc
  simp only [toHex8, List.mem_map, List.mem_range] at hc
  obtain ⟨i, _, rfl⟩ := hc
  exact hexDigit_isHex (Nat.lt_succ_of_le (Nat.and_le_right))

theorem sha256hex_length (s : List Char) : (sha256hex s).length = 64 := by
  simp [sha256hex, toHex8_length]

theorem sha256hex_hex (s : List Char) : ∀ c ∈ sha256hex s, isHexChar c = true := by
  intro c hc
  simp only [sha256hex, List.mem_append] at hc
  rcases hc with ((((((hc | hc) | hc) | hc) | hc) | hc) | hc) | hc <;>
    exact toHex8_hex _ c hc

/-! ## Concrete fixtures used by witnesses and counterexamples -/

/-- The empty store. -/
def exStore0 : Store := ⟨[], 0⟩

/-- A clean submission (the spec's example accepted text), with no
identity-bearing headers. -/
def exReqOk : SubmitRequest :=
  ⟨.jsStr "Saw something odd downtown today".toList, .jsUndefined, [], [], []⟩

/-- The spec's example PII-bearing submission. -/
def exReqPii : SubmitRequest :=
  ⟨.jsStr "Contact me at john@example.com please".toList, .jsUndefined, [], [], []⟩

/-- A request whose `text` field is a JSON number (truthy non-string). -/
def exReqNum : SubmitRequest := ⟨.jsNum 12345678901, .jsUndefined, [], [], []⟩

/-- A request whose `text` field is absent. -/
def exReqMissing : SubmitRequest := ⟨.jsNull, .jsUndefined, [], [], []⟩

/-- A text the phone alternative flags although it contains one digit. -/
def exPhoneTrick : List Char := "Meet 5 - - -() ok".toList

/-- Two documents with equal `created_at` and distinct ids. -/
def exDocA : Doc := ⟨1, "aaaaaaaaaa".toList, "en", "pending", 5, none, []⟩

/-- Second document of the tie pair. -/
def exDocB : Doc := ⟨2, "bbbbbbbbbb".toList, "en", "pending", 5, none, []⟩

/-- Store holding the tie pair in insertion order. -/
def exStore7 : Store := ⟨[exDocA, exDocB], 3⟩

/-- A listing answer that orders the tie pair against insertion order. -/
def exOut7 : List ListedDoc := [projectDoc exDocB, projectDoc exDocA]

/-! ## Claims -/

/-- C1: for every request body, intake replies `Invalid length` exactly when
the UTF-16 length of the whitespace-trimmed coerced text is below 10 or
above 2000; the right-hand side does not mention the PII heuristic, so the
rejection is independent of it (the length check decides first). -/
theorem c1_invalid_length_iff (now : Nat) (r : SubmitRequest) (st : Store) :
    (submitHandler now r st).1 = SubmitResponse.invalidLength ↔
      (utf16Len (submitText r) < 10 ∨ 2000 < utf16Len (submitText r)) := by
  unfold submitHandler
  split
  · rename_i h
    simp only [Bool.or_eq_true, decide_eq_true_eq] at h
    simpa using h
  · rename_i h
    have hr : ¬(utf16Len (submitText r) < 10 ∨ 2000 < utf16Len (submitText r)) := by
      simpa using h
    refine iff_of_false ?_ hr
    by_cases hrisky : riskyTest (submitText r) = true
    · rw [if_pos hrisky]
      simp
    · rw [if_neg hrisky]
      simp [insertOne]

/-- C3: a request whose trimmed text has valid length but matches the PII
heuristic is rejected with `PII detected` and the store is unchanged. -/
theorem c3_pii_rejected (now : Nat) (r : SubmitRequest) (st : Store)
    (h1 : 10 ≤ utf16Len (submitText r)) (h2 : utf16Len (submitText r) ≤ 2000)
    (h3 : riskyTest (submitText r) = true) :
    submitHandler now r st = (SubmitResponse.piiDetected, st) := by
  have hcond : (decide (utf16Len (submitText r) < 10) ||
      decide (2000 < utf16Len (submitText r))) = false := by
    simp [Nat.not_lt.mpr h1, Nat.not_lt.mpr h2]
  unfold submitHandler
  rw [hcond]
  simp [h3]

/-- C3 witness: the spec's example text `Contact me at john@example.com
please` has valid length, is flagged, and is rejected with the store
untouched. -/
theorem c3_witness :
    submitHandler 0 exReqPii exStore0 = (SubmitResponse.piiDetected, exStore0) :=
  c3_pii_rejected 0 exReqPii exStore0 (by decide) (by decide) (by decide)

/-- C5: both insert paths produce an initial status of `pending` with
`created_at` assigned at insertion: an accepted submit appends exactly one
pending document stamped with the handler's clock, and the SQLite
`insertSubmission` appends one row taking the column defaults. -/
theorem c5_pending_initial :
    (∀ now r st id st',
      submitHandler now r st = (SubmitResponse.created id, st') →
      ∃ d : Doc, st'.docs = st.docs ++ [d] ∧ d.status = "pending" ∧
        d.created_at = now) ∧
    (∀ now p db, ∃ row : DbRow,
      (insertSubmission now p db).1.rows = db.rows ++ [row] ∧
      row.status = "pending" ∧ row.created_at = now) := by
  constructor
  · intro now r st id st' h
    unfold submitHandler at h
    split at h
    · simp at h
    · split at h
      · simp at h
      · simp only [insertOne] at h
        obtain ⟨h1, h2⟩ := Prod.mk.injEq _ _ _ _ ▸ h
        exact ⟨_, by rw [← h2], rfl, rfl⟩
  · intro now p db
    exact ⟨⟨db.nextId, p.text, p.lang, "pending", p.ip_hash, p.ua, now⟩,
      rfl, rfl, rfl⟩

/-- C5 witness: submitting the clean example text to the empty store appends
one pending document with `created_at = 0`. -/
theorem c5_witness :
    (∃ d : Doc, ((submitHandler 0 exReqOk exStore0).2).docs =
      exStore0.docs ++ [d] ∧ d.status = "pending" ∧ d.created_at = 0) ∧
    (∃ row : DbRow,
      (insertSubmission 7 ⟨"hello there world".toList, "en", none, []⟩
        ⟨[], 0⟩).1.rows = ([] : List DbRow) ++ [row] ∧
      row.status = "pending" ∧ row.created_at = 7) :=
  ⟨c5_pending_initial.1 0 exReqOk exStore0 0 (submitHandler 0 exReqOk exStore0).2 rfl,
   c5_pending_initial.2 7 ⟨"hello there world".toList, "en", none, []⟩ ⟨[], 0⟩⟩

/-- C2 counterexample: `Meet 5 - - -() ok` is flagged, and flagged by the
phone alternative, although it contains exactly one digit — refuting "every
string it flags as phone-like contains at least 9 digits". -/
theorem c2_counterexample :
    riskyTest exPhoneTrick = true ∧ phoneScan exPhoneTrick = true ∧
      digitCount exPhoneTrick = 1 := by decide

/-- C4: the `submissions.status` CHECK constraint of `db.js` accepts exactly
`pending`, `approved` and `rejected`; in particular it rejects `published`,
so the schema cannot hold a published record. -/
theorem c4_sqlite_status_check :
    sqliteStatusCheck "published" = false ∧
      ∀ s : String, sqliteStatusCheck s = true ↔
        (s = "pending" ∨ s = "approved" ∨ s = "rejected") := by
  refine ⟨by decide, fun s => ?_⟩
  simp [sqliteStatusCheck, or_assoc]

/-- C6: the fingerprint is `null` exactly when no address is available;
otherwise it is the SHA-256 hex digest truncated to 16 hex characters; and
it is deterministic in the address. -/
theorem c6_fingerprint_spec (ip : List Char) :
    (fingerprint ip = none ↔ ip = []) ∧
    Option.elim (fingerprint ip) (ip = [])
      (fun o => o.length = 16 ∧ o.all isHexChar = true) ∧
    ∀ ip', ip = ip' → fingerprint ip = fingerprint ip' := by
  refine ⟨?_, ?_, fun ip' h => by rw [h]⟩
  · unfold fingerprint
    split
    · rename_i h
      simp only [List.isEmpty_iff] at h
      simp [h]
    · rename_i h
      simp only [List.isEmpty_iff] at h
      simp [h]
  · unfold fingerprint
    split
    · rename_i h
      simpa [List.isEmpty_iff] using h
    · rename_i h
      simp only [Option.elim]
      constructor
      · simp [List.length_take, sha256hex_length]
      · rw [List.all_eq_true]
        intro c hc
        exact sha256hex_hex ip c (List.mem_of_mem_take hc)

/-- C6 witness: the empty address yields `null`; a concrete address yields a
16-character hex fingerprint, deterministically. -/
theorem c6_witness :
    (fingerprint [] = none ↔ ([] : List Char) = []) ∧
    Option.elim (fingerprint "203.0.113.9".toList) ("203.0.113.9".toList = [])
      (fun o => o.length = 16 ∧ o.all isHexChar = true) ∧
    fingerprint "203.0.113.9".toList = fingerprint "203.0.113.9".toList :=
  ⟨(c6_fingerprint_spec []).1, (c6_fingerprint_spec "203.0.113.9".toList).2.1,
    (c6_fingerprint_spec "203.0.113.9".toList).2.2 "203.0.113.9".toList rfl⟩

/-- Table rows mirroring the tie pair (for the SQLite listing). -/
def exRowA : DbRow := ⟨1, "aaaaaaaaaa".toList, "en", "pending", none, [], 5⟩

/-- Second row of the tie pair. -/
def exRowB : DbRow := ⟨2, "bbbbbbbbbb".toList, "en", "pending", none, [], 5⟩

/-- Table holding the tie pair. -/
def exDb7 : DbState := ⟨[exRowA, exRowB], 3⟩

/-- C7 (amended): every valid answer of the admin listing and of the SQLite
`listLatest` is ordered by `created_at` descending; the order of records
with equal `created_at` is unspecified (neither query has an id
tie-break). -/
theorem c7_listings_sorted :
    (∀ st out, adminListValid st out →
      List.Chain' (fun a b : ListedDoc => b.created_at ≤ a.created_at) out) ∧
    (∀ db limit out, listLatestValid db limit out →
      List.Chain' (fun a b : ListedDoc => b.created_at ≤ a.created_at) out) := by
  constructor
  · rintro st out ⟨sorted, _, hchain, rfl⟩
    rw [List.chain'_map]
    exact List.Chain'.take hchain 50
  · rintro db limit out ⟨sorted, _, hchain, rfl⟩
    rw [List.chain'_map]
    exact List.Chain'.take hchain limit

/-- C7 counterexample: with two documents sharing `created_at`, the answer
listing the higher id first is a valid query result, yet it violates the
claimed id tie-break. -/
theorem c7_counterexample :
    adminListValid exStore7 exOut7 ∧ specTieOrdered exOut7 = false := by
  constructor
  · exact ⟨[exDocB, exDocA], by decide,
      by simp [SortedByCreatedAtDesc, List.chain'_cons, exDocA, exDocB], by decide⟩
  · decide

/-- C7 witness: the amended theorem applied to the tie pair, for both the
admin listing and the SQLite listing. -/
theorem c7_witness :
    List.Chain' (fun a b : ListedDoc => b.created_at ≤ a.created_at) exOut7 ∧
    List.Chain' (fun a b : ListedDoc => b.created_at ≤ a.created_at)
      (([exRowB, exRowA].take 50).map projectRow) :=
  ⟨c7_listings_sorted.1 exStore7 exOut7
      ⟨[exDocB, exDocA], by decide,
        by simp [SortedByCreatedAtDesc, List.chain'_cons, exDocA, exDocB], by decide⟩,
   c7_listings_sorted.2 exDb7 50 (([exRowB, exRowA].take 50).map projectRow)
      ⟨[exRowB, exRowA], by decide,
        by simp [RowsSortedDesc, List.chain'_cons, exRowA, exRowB], rfl⟩⟩

/-- C8: language normalization maps exactly the string `"ru"` to `ru` and
everything else (absent, non-string, or any other string) to `en`; hence a
store whose documents all have language `en` or `ru` keeps that invariant
across any submit request. -/
theorem c8_lang_normalization :
    (∀ v : JsValue, (normLang v = "ru" ↔ v = JsValue.jsStr "ru".toList) ∧
      (normLang v = "en" ∨ normLang v = "ru")) ∧
    (∀ now r st, (∀ d ∈ st.docs, d.lang = "en" ∨ d.lang = "ru") →
      ∀ d ∈ (submitHandler now r st).2.docs, d.lang = "en" ∨ d.lang = "ru") := by
  have hror : ∀ v : JsValue, normLang v = "en" ∨ normLang v = "ru" := by
    intro v
    cases v <;> simp [normLang]
    exact (em _).symm
  constructor
  · intro v
    refine ⟨?_, hror v⟩
    cases v <;> simp [normLang]
  · intro now r st hst d hd
    unfold submitHandler at hd
    split at hd
    · exact hst d hd
    · split at hd
      · exact hst d hd
      · simp only [insertOne, List.mem_append, List.mem_singleton] at hd
        rcases hd with hd | rfl
        · exact hst d hd
        · exact hror r.bodyLang

/-- C8 witness: the invariant applied to the concrete accepted submission,
at the single inserted document. -/
theorem c8_witness :
    (Doc.mk 0 "Saw something odd downtown today".toList "en" "pending" 0
      none []).lang = "en" ∨
    (Doc.mk 0 "Saw something odd downtown today".toList "en" "pending" 0
      none []).lang = "ru" :=
  c8_lang_normalization.2 0 exReqOk exStore0 (by simp [exStore0])
    (Doc.mk 0 "Saw something odd downtown today".toList "en" "pending" 0 none [])
    (by decide)

/-- Request agreeing with `exReqOk` on the body but carrying identity
headers (forwarded address, socket address, client signature). -/
def exReqOkUa : SubmitRequest :=
  ⟨.jsStr "Saw something odd downtown today".toList, .jsUndefined,
   "198.51.100.7".toList, "10.0.0.1".toList, "Mozilla/5.0".toList⟩

/-- Single-document store for the noninterference witness. -/
def exStore9 : Store := ⟨[exDocA], 2⟩

/-- Same store with different `ip_hash` and `ua` on its document. -/
def exStore9' : Store :=
  ⟨[⟨1, "aaaaaaaaaa".toList, "en", "pending", 5,
     some "0123456789abcdef".toList, "curl/8.0".toList⟩], 2⟩

/-- C9: stored submitter identity is never exposed — the submit response is
independent of the request's addresses and client signature, and two stores
whose documents agree on all projected fields (differing only in `ip_hash`
and `ua`) validate exactly the same admin-listing outputs. -/
theorem c9_identity_not_exposed :
    (∀ now (r r' : SubmitRequest) st, r.bodyText = r'.bodyText →
      r.bodyLang = r'.bodyLang →
      (submitHandler now r st).1 = (submitHandler now r' st).1) ∧
    (∀ st st' : Store, List.Forall₂ agreeVisible st.docs st'.docs →
      ∀ out, adminListValid st out → adminListValid st' out) := by
  constructor
  · intro now r r' st h1 h2
    unfold submitHandler submitText
    rw [h1, h2]
    split
    · rfl
    · split
      · rfl
      · simp [insertOne]
  · intro st st' hagree out hvalid
    obtain ⟨sorted, hperm, hchain, hout⟩ := hvalid
    obtain ⟨sorted', hperm', hf⟩ := perm_transport_forall₂ hperm.symm hagree
    have hca : ∀ x y : Doc, agreeVisible x y → x.created_at = y.created_at := by
      intro x y hxy
      simpa [projectDoc] using congrArg ListedDoc.created_at hxy
    refine ⟨sorted', hperm'.symm, ?_, ?_⟩
    · refine chain'_transfer ?_ hf hchain
      intro a b a' b' ha hb hs
      rw [← hca a a' ha, ← hca b b' hb]
      exact hs
    · rw [hout]
      exact map_eq_of_forall₂
        ((List.forall₂_take 50 hf).imp (fun a b h => h))

/-- C9 witness: the response equality for requests differing only in
identity headers, and listing validity transported to the store that
differs only in `ip_hash`/`ua`. -/
theorem c9_witness :
    (submitHandler 0 exReqOk exStore0).1 = (submitHandler 0 exReqOkUa exStore0).1 ∧
    adminListValid exStore9' [projectDoc exDocA] :=
  ⟨c9_identity_not_exposed.1 0 exReqOk exReqOkUa exStore0 rfl rfl,
   c9_identity_not_exposed.2 exStore9 exStore9'
      (List.Forall₂.cons (by unfold agreeVisible; decide) List.Forall₂.nil)
      [projectDoc exDocA]
      ⟨[exDocA], by decide, by simp [SortedByCreatedAtDesc], by decide⟩⟩

/-- C10 (amended): a missing or falsy `text` field coerces to the empty
string and is rejected with `Invalid length`, leaving the store unchanged;
truthy non-string values instead flow through `toString` and the normal
checks. -/
theorem c10_falsy_text_invalid_length (now : Nat) (r : SubmitRequest)
    (st : Store) (h : jsFalsy r.bodyText = true) :
    submitHandler now r st = (SubmitResponse.invalidLength, st) := by
  have ht : submitText r = [] := by
    simp [submitText, coerceText, h, jsTrim]
  unfold submitHandler
  rw [ht]
  simp [utf16Len]

/-- C10 witness: an absent (`null`) text field is rejected with
`Invalid length`. -/
theorem c10_witness :
    submitHandler 0 exReqMissing exStore0 = (SubmitResponse.invalidLength, exStore0) :=
  c10_falsy_text_invalid_length 0 exReqMissing exStore0 (by decide)

/-- C10 counterexample: the JSON number `12345678901` is a non-string text
field, yet it is rejected as PII, not with `Invalid length` — its digits
survive the `toString` coercion. -/
theorem c10_counterexample :
    isInvalidLength (submitHandler 0 exReqNum exStore0).1 = false ∧
      (submitHandler 0 exReqNum exStore0).1 = SubmitResponse.piiDetected := by
  decide

end GossipBot
